import Mathlib

/-!
# Verification of the sentio i18n core

Shallow embedding of the message-resolution and formatting engine of the
sentio repository (src/i18n): locale fallback-chain construction
(`resolve.ts`), key-path lookup (`keypath.ts`), the ICU parser wrapper and
its compiled-formatter cache (`parser.ts`), the LRU cache (`lru-cache.ts`),
literal interpolation (`interpolate.ts`), the runtime instance
(`index.ts`: `t`, `loadNamespace`) and the offline-first cached loader
(`loaders/cached.ts`).

JavaScript strings are modelled as Lean `String`; `String.prototype.split`
is modelled by an explicit splitter with the same semantics (empty segments
kept, `''.split(sep) = ['']`). JavaScript objects / `Map`s are modelled as
association lists in insertion order with unique keys.
-/

namespace Sentio

/-! ## JS string primitives -/

/-- Semantics of `str.split(sep)` on the character list: split at every
occurrence of `sep`, keeping empty segments; the empty string yields one
empty segment, as in JS. -/
def jsSplit (sep : Char) : List Char → List (List Char)
  | [] => [[]]
  | c :: rest =>
    match jsSplit sep rest with
    | [] => [[]]
    | s :: ss => if c = sep then [] :: s :: ss else (c :: s) :: ss

/-- Model of `str.split(sep)` for Lean strings. -/
def jsSplitStr (sep : Char) (s : String) : List String :=
  (jsSplit sep s.data).map String.mk

/-- Model of `str.includes(c)` for a single-character needle. -/
def jsIncludesChar (s : String) (c : Char) : Bool := s.data.contains c

/-! ## Fallback resolver (`src/i18n/resolve.ts`) -/

/-- Function `parseLocale(locale)` from `resolve.ts`: split on `'-'`, take `parts[0]` as `base` and
`parts[1]` (possibly absent) as `region`. -/
def parseLocale (locale : String) : String × Option String :=
  let parts := jsSplitStr '-' locale
  (parts.headD "", parts[1]?)

/-- JS truthiness of the optional `region` field: `undefined` and the empty
string are falsy. -/
def regionTruthy : Option String → Bool
  | none => false
  | some r => r ≠ ""

/-- Function `buildFallbackChain(locale, fallback)` from `resolve.ts`: push the full
locale when it has a region, then the base (unless already present), then
the fallback (unless equal to the base or already present). -/
def buildFallbackChain (locale fallback : String) : List String :=
  let p := parseLocale locale
  let base := p.1
  let chain : List String := if regionTruthy p.2 then [locale] else []
  let chain := if base ∈ chain then chain else chain ++ [base]
  let chain :=
    if fallback ≠ base ∧ fallback ∉ chain then chain ++ [fallback] else chain
  chain

/-! ## Message dictionaries (`src/i18n/keypath.ts`, `src/i18n/index.ts`) -/

/-- Runtime JS value inside a message dictionary: a string leaf, a nested
object, `null`, or another non-string non-object primitive (modelled by a
number, which only matters through being neither a string nor an object). -/
inductive JValue where
  | vstr (s : String)
  | vobj (fields : List (String × JValue))
  | vnull
  | vnum (n : Int)

/-- A JS object used as a dictionary: association list in insertion order,
keys unique. -/
abbrev Dict := List (String × JValue)

/-- The message store: locale code → dictionary. -/
abbrev Messages := List (String × Dict)

/-- Own-property read `obj[k]` (`undefined` is `none`). -/
def getProp (fields : Dict) (k : String) : Option JValue :=
  (fields.find? (fun e => e.1 == k)).map (·.2)

/-- Record read `messages[loc]`. -/
def lookupDict (m : Messages) (loc : String) : Option Dict :=
  (m.find? (fun e => e.1 == loc)).map (·.2)

/-- The segment loop of `getByPath`: `current` is `none` for JS
`undefined`. `null`, strings and other primitives short-circuit to
`undefined`; objects are indexed by the segment. -/
def walkPath : Option JValue → List String → Option JValue
  | cur, [] => cur
  | none, _ :: _ => none
  | some .vnull, _ :: _ => none
  | some (.vstr _), _ :: _ => none
  | some (.vnum _), _ :: _ => none
  | some (.vobj fields), seg :: rest => walkPath (getProp fields seg) rest

/-- Function `getByPath(obj, path)` from `keypath.ts`: split the path on `'.'`,
walk the object segment by segment, and return the terminal value only if
it is a string. -/
def getByPath (obj : Dict) (path : String) : Option String :=
  match walkPath (some (.vobj obj)) (jsSplitStr '.' path) with
  | some (.vstr s) => some s
  | _ => none

/-- Is an own-property read a plain string? (`typeof value === 'string'`). -/
def isStringValue : Option JValue → Bool
  | some (.vstr _) => true
  | _ => false

/-- Body of the per-candidate loop of `resolveMessageFromLoaded`
(`index.ts`): exact own-key lookup first, accepted only when the value is
a plain string; then, when the key contains a dot, the nested path walk. -/
def findInDict (dict : Dict) (key : String) : Option String :=
  match getProp dict key with
  | some (.vstr s) => some s
  | _ => if jsIncludesChar key '.' then getByPath dict key else none

/-- The candidate-locale loop of `resolveMessageFromLoaded`: first
candidate whose dictionary yields a string wins; absent dictionaries are
skipped. -/
def resolveLoop (key : String) (messages : Messages) : List String → Option String
  | [] => none
  | loc :: rest =>
    match lookupDict messages loc with
    | none => resolveLoop key messages rest
    | some dict =>
      match findInDict dict key with
      | some s => some s
      | none => resolveLoop key messages rest

/-- Function `resolveMessageFromLoaded(key, locale, fallback, messages)` from
`index.ts`. -/
def resolveMessageFromLoaded (key locale fallback : String)
    (messages : Messages) : Option String :=
  resolveLoop key messages (buildFallbackChain locale fallback)

/-! ## Literal interpolation (`src/i18n/interpolate.ts`) -/

/-- A parameter value as `interpolate` consumes it: `null`/`undefined`, or
any other value represented by its `String(value)` image. -/
inductive PValue where
  | pnull
  | pstr (s : String)

/-- The params record, in property order. -/
abbrev Params := List (String × PValue)

/-- Test `Object.prototype.hasOwnProperty.call(params, key)` plus the read. -/
def lookupParam (params : Params) (k : String) : Option PValue :=
  (params.find? (fun e => e.1 == k)).map (·.2)

/-- Class `\w` of the regex `/\{(\w+)\}/g`: ASCII letters, digits, underscore. -/
def isWordChar (c : Char) : Bool := c.isAlphanum || c = '_'

/-- The global replace of `/\{(\w+)\}/g` with the callback of
`interpolate`: at each `'{'`, a maximal nonempty run of word characters
followed by `'}'` is a placeholder occurrence (no shorter run can match,
since a word character can never stand where the `'}'` must); a present
param substitutes its stringified value (`null`/`undefined` becoming the
empty string), an absent key leaves the occurrence verbatim; scanning
resumes after the occurrence. -/
def interpGo (params : Params) : List Char → List Char
  | [] => []
  | c :: rest =>
    if c = '{' then
      let w := rest.takeWhile isWordChar
      let rest2 := rest.drop w.length
      if w ≠ [] ∧ rest2.head? = some '}' then
        (match lookupParam params (String.mk w) with
          | some .pnull => []
          | some (.pstr s) => s.data
          | none => '{' :: (w ++ ['}'])) ++ interpGo params rest2.tail
      else c :: interpGo params rest
    else c :: interpGo params rest
termination_by cs => cs.length
decreasing_by
  · simp only [List.length_cons, List.length_tail, List.length_drop]
    omega
  · simp
  · simp

/-- Function `interpolate(template, params)` from `interpolate.ts`: empty params return the template
untouched, otherwise the regex replace runs. -/
def interpolate (template : String) (params : Params) : String :=
  if params.isEmpty then template else String.mk (interpGo params template.data)

/-! ## ICU syntax detection (`src/i18n/parser.ts`) -/

/-- Class `\s` (ASCII whitespace as it occurs in message templates). -/
def isJsWS (c : Char) : Bool :=
  c = ' ' || c = '\t' || c = '\n' || c = '\r' || c = '\x0b' || c = '\x0c'

/-- Tail of `ICU_PATTERN` after the keyword: `\s*` then a literal `','`. -/
def icuKwTail (cs : List Char) : Bool :=
  match cs.dropWhile isJsWS with
  | ',' :: _ => true
  | _ => false

/-- Part of `ICU_PATTERN` after the first `','`: `\s*`, one of
`plural`/`select`/`selectordinal`, then `\s*` and a `','`. All three
alternatives are tried, as regex alternation with backtracking does. -/
def icuAfterComma (cs : List Char) : Bool :=
  let cs1 := cs.dropWhile isJsWS
  ("plural".data.isPrefixOf cs1 && icuKwTail (cs1.drop 6))
    || ("select".data.isPrefixOf cs1 && icuKwTail (cs1.drop 6))
    || ("selectordinal".data.isPrefixOf cs1 && icuKwTail (cs1.drop 13))

/-- Part `[^}]+,` of `ICU_PATTERN`, after the opening `'{'`: consume characters
other than `'}'`; once at least one is consumed, a `','` may either close
the variable part (handing over to `icuAfterComma`) or belong to it —
both continuations are tried, as the backtracking engine does. -/
def icuVar : List Char → Bool → Bool
  | [], _ => false
  | c :: rest, consumed =>
    if c = '}' then false
    else if c = ',' ∧ consumed then icuAfterComma rest || icuVar rest true
    else icuVar rest true

/-- Test `ICU_PATTERN.test(message)`: try a match starting at every position. -/
def icuScan : List Char → Bool
  | [] => false
  | c :: rest => (c == '{' && icuVar rest false) || icuScan rest

/-- Function `isICUMessage(message)` from `parser.ts`: does the message match
`/\{[^}]+,\s*(plural|select|selectordinal)\s*,/`? -/
def isICUMessage (message : String) : Bool := icuScan message.data

/-! ## ICU parser instance (`src/i18n/parser.ts`) -/

/-- JS `Map`/object get, keyed by `==`. -/
def jsMapGet {K V : Type} [BEq K] (m : List (K × V)) (k : K) : Option V :=
  (m.find? (fun e => e.1 == k)).map (·.2)

/-- JS `Map.prototype.set` / object property assignment: overwrite in place
when the key is present, otherwise append. -/
def jsMapSet {K V : Type} [BEq K] (m : List (K × V)) (k : K) (v : V) :
    List (K × V) :=
  if (m.find? (fun e => e.1 == k)).isSome then
    m.map (fun e => if e.1 == k then (k, v) else e)
  else m ++ [(k, v)]

/-- JS `Map.prototype.delete` (unique-keyed maps). -/
def jsMapDelete {K V : Type} [BEq K] (m : List (K × V)) (k : K) :
    List (K × V) :=
  m.filter (fun e => !(e.1 == k))

/-- The compiled-formatter cache of `createICUParser`: a plain JS `Map`
keyed by `` `${locale}:${message}` ``. -/
abbrev ICUCache (C : Type) := List (String × C)

/-- Function `format` of `createICUParser`: `getFormatter` (cache lookup, else
`new IntlMessageFormat(message, locale)` followed by `cache.set`) and
`formatter.format(params)` run inside one `try`; any error caught returns
the original message. The external `IntlMessageFormat` library is
abstracted into a compile step (construction, may throw) and an
evaluation step (`.format` plus the final string coercion, may throw).
Returns the formatted string and the updated cache. -/
def parserFormat {C E : Type} (compile : String → String → Except E C)
    (eval : C → Params → Except E String)
    (cache : ICUCache C) (message locale : String) (params : Params) :
    String × ICUCache C :=
  let key := locale ++ ":" ++ message
  match jsMapGet cache key with
  | some f =>
    match eval f params with
    | .ok r => (r, cache)
    | .error _ => (message, cache)
  | none =>
    match compile message locale with
    | .error _ => (message, cache)
    | .ok f =>
      let cache2 := jsMapSet cache key f
      match eval f params with
      | .ok r => (r, cache2)
      | .error _ => (message, cache2)

/-- Constant `DEFAULT_CACHE_SIZE` from `lru-cache.ts`. -/
def DEFAULT_CACHE_SIZE : Nat := 1000

/-- A sequence of `format` calls on one parser instance (one message per
call, fixed locale and params), tracking only the cache. -/
def parserFormatRun {C E : Type} (compile : String → String → Except E C)
    (eval : C → Params → Except E String) (locale : String) (params : Params)
    (cache : ICUCache C) (msgs : List String) : ICUCache C :=
  msgs.foldl (fun c m => (parserFormat compile eval c m locale params).2) cache

/-! ## LRU cache (`src/i18n/lru-cache.ts`) -/

/-- The LRU cache state: a JS `Map` in insertion order (oldest first);
recency is encoded by delete-then-reinsert, as in the source. -/
abbrev LRU (K V : Type) := List (K × V)

/-- Function `get(key)` of `createLRUCache`: on a hit, delete and re-insert the
entry, moving it to the most-recently-used end. Returns the value and the
updated map. -/
def lruGet {K V : Type} [BEq K] (cache : LRU K V) (k : K) :
    Option V × LRU K V :=
  match jsMapGet cache k with
  | none => (none, cache)
  | some v => (some v, jsMapSet (jsMapDelete cache k) k v)

/-- The eviction loop of `set`: while the size exceeds `maxSize`, delete
the oldest (first-inserted) key. -/
def evictOldest {K V : Type} (maxSize : Nat) : LRU K V → LRU K V
  | [] => []
  | e :: rest =>
    if rest.length + 1 > maxSize then evictOldest maxSize rest else e :: rest

/-- Function `set(key, value)` of `createLRUCache`: delete an existing entry to
refresh its position, insert at the most-recently-used end, then evict
oldest entries while over capacity. -/
def lruSet {K V : Type} [BEq K] (maxSize : Nat) (cache : LRU K V)
    (k : K) (v : V) : LRU K V :=
  let cache1 := if (jsMapGet cache k).isSome then jsMapDelete cache k else cache
  evictOldest maxSize (jsMapSet cache1 k v)

/-! ## Runtime instance (`src/i18n/index.ts`) -/

/-- Hook invocations observable from `t`: the configured
`onMissingKey(key, locale)` and the telemetry `hooks.onMiss(key, locale)`.
(`hooks.onError` never fires: the parser's `format` catches internally.) -/
inductive HookCall where
  | missingKey (key locale : String)
  | onMiss (key locale : String)

/-- Mutable state of a `createI18n` instance: current locale, fixed
fallback, the message store, the per-locale loaded-namespace markers, and
the instance-scoped ICU parser cache. -/
structure I18nState (C : Type) where
  currentLocale : String
  fallbackLocale : String
  loadedMessages : Messages
  loadedNamespaces : List (String × List String)
  icuCache : ICUCache C

/-- Function `setLocale(locale)`. -/
def setLocale {C : Type} (st : I18nState C) (locale : String) : I18nState C :=
  { st with currentLocale := locale }

/-- Function `t(key, params?)` from `index.ts`: resolve through the fallback chain;
on a miss fire the missing-key hooks and return the key; on a hit, route
grammar-bearing messages with params through the ICU parser (whose own
`try`/`catch` already falls back to the raw message, so the outer catch
and `hooks.onError` never fire), plain messages with params through
`interpolate`, and return the message unchanged otherwise. Returns the
rendered string, the updated state and the hook invocations. -/
def tFun {C E : Type} (compile : String → String → Except E C)
    (eval : C → Params → Except E String)
    (st : I18nState C) (key : String) (params : Option Params) :
    String × I18nState C × List HookCall :=
  match resolveMessageFromLoaded key st.currentLocale st.fallbackLocale
      st.loadedMessages with
  | none =>
    (key, st, [.missingKey key st.currentLocale, .onMiss key st.currentLocale])
  | some message =>
    match params with
    | none => (message, st, [])
    | some p =>
      if isICUMessage message then
        let r := parserFormat compile eval st.icuCache message st.currentLocale p
        (r.1, { st with icuCache := r.2 }, [])
      else (interpolate message p, st, [])

/-- JS object spread merge `{ ...old, ...fresh }`: keys of `old` in order
with values overridden by `fresh` where present, then keys only in
`fresh` appended in their order. -/
def jsMergeObj (old fresh : Dict) : Dict :=
  old.map (fun e =>
    match getProp fresh e.1 with
    | some v => (e.1, v)
    | none => e)
    ++ fresh.filter (fun e => (getProp old e.1).isNone)

/-- Function `loadNamespace(namespace)` from `index.ts`, with the namespace
source's fragment for (namespace, currentLocale) supplied as `fragment`:
a no-op when the (currentLocale, namespace) marker is present; otherwise
merge the fragment over the current locale's dictionary and record the
marker. The boolean reports whether the underlying source was invoked. -/
def loadNamespace {C : Type} (st : I18nState C) (ns : String)
    (fragment : Dict) : I18nState C × Bool :=
  let localeNs := (jsMapGet st.loadedNamespaces st.currentLocale).getD []
  if ns ∈ localeNs then (st, false)
  else
    let newDict :=
      jsMergeObj ((lookupDict st.loadedMessages st.currentLocale).getD [])
        fragment
    ({ st with
        loadedMessages := jsMapSet st.loadedMessages st.currentLocale newDict
        loadedNamespaces :=
          jsMapSet st.loadedNamespaces st.currentLocale (localeNs ++ [ns]) },
      true)

/-! ## Cached loader (`src/i18n/loaders/cached.ts`, default localStorage
backend) -/

/-- A persisted cache entry: dictionary payload and creation timestamp in
epoch milliseconds (corrupted entries parse to a miss and are therefore
modelled by absence). -/
structure CacheEntry where
  messages : Dict
  timestamp : Nat

/-- State of one cached loader: the persistent store (keyed by
`` `${prefix}:${locale}` ``; the prefix is fixed per loader, so keys are
modelled by the locale alone) and the in-memory served-locale bookkeeping. -/
structure CachedState where
  store : List (String × CacheEntry)
  loadedLocales : List String

/-- Function `isExpired(timestamp, ttl)` at clock value `now`. -/
def isExpired (timestamp ttl now : Nat) : Bool := now - timestamp > ttl

/-- JS `Set.prototype.add`. -/
def addLoaded (l : List String) (x : String) : List String :=
  if x ∈ l then l else l ++ [x]

/-- Steps 3–5 of `load`: call the wrapped source (`sourceResult` is the
outcome the source produces for this call); on success persist with a
fresh timestamp; on failure fall back to the stale entry when one exists,
else propagate. -/
def cachedFetch (now : Nat) (sourceResult : Except String Dict)
    (st : CachedState) (locale : String) (cached : Option CacheEntry) :
    Except String Dict × CachedState × Bool :=
  match sourceResult with
  | .ok msgs =>
    (.ok msgs,
      { store := jsMapSet st.store locale ⟨msgs, now⟩
        loadedLocales := addLoaded st.loadedLocales locale },
      true)
  | .error e =>
    match cached with
    | some entry =>
      (.ok entry.messages,
        { st with loadedLocales := addLoaded st.loadedLocales locale },
        true)
    | none => (.error e, st, true)

/-- Function `load(locale)` of `createCachedLoader` over the default localStorage
backend, at clock value `now`: a fresh (non-expired) entry is returned
without touching the wrapped source; otherwise the source is called via
`cachedFetch`. Returns (result, state, sourceInvoked). -/
def cachedLoad (ttl now : Nat) (sourceResult : Except String Dict)
    (st : CachedState) (locale : String) :
    Except String Dict × CachedState × Bool :=
  match jsMapGet st.store locale with
  | some entry =>
    if isExpired entry.timestamp ttl now then
      cachedFetch now sourceResult st locale (some entry)
    else
      (.ok entry.messages,
        { st with loadedLocales := addLoaded st.loadedLocales locale },
        false)
  | none => cachedFetch now sourceResult st locale none

/-- Shape of the cache after feeding the first `n` keys `0, 1, …, n-1`
(each fresh) into `lruSet`: the most recent `min n max` of them, oldest
first. -/
def lruExpected (max n : Nat) : LRU Nat Nat :=
  ((List.range n).map (fun j => (j, 0))).drop (n - max)

/-- Pairwise-distinct template texts: `'a'` repeated `i` times. -/
def uMsg (i : Nat) : String := String.mk (List.replicate i 'a')

/-! ## Theorems -/

theorem jsSplit_nil (sep : Char) : jsSplit sep [] = [[]] := rfl

theorem jsSplit_ne_nil (sep : Char) (cs : List Char) : jsSplit sep cs ≠ [] := by
  cases cs with
  | nil => simp [jsSplit]
  | cons c rest =>
    simp only [jsSplit]
    rcases h : jsSplit sep rest with _ | ⟨s, ss⟩ <;> simp
    split <;> simp

/-- A string with no occurrence of the separator splits into itself alone. -/
theorem jsSplit_of_not_mem (sep : Char) (cs : List Char) (h : sep ∉ cs) :
    jsSplit sep cs = [cs] := by
  induction cs with
  | nil => rfl
  | cons c rest ih =>
    have hc : c ≠ sep := fun hcs => h (hcs ▸ List.mem_cons_self c rest)
    have hrest : sep ∉ rest := fun hm => h (List.mem_cons_of_mem c hm)
    simp only [jsSplit, ih hrest]
    simp [hc]

/-- Splitting a string of the form `pre ++ sep ++ post` where `pre` is
separator-free peels off `pre` as the first segment. -/
theorem jsSplit_append (sep : Char) (pre post : List Char) (h : sep ∉ pre) :
    jsSplit sep (pre ++ sep :: post) = pre :: jsSplit sep post := by
  induction pre with
  | nil =>
    simp only [List.nil_append, jsSplit]
    rcases hp : jsSplit sep post with _ | ⟨s, ss⟩
    · exact absurd hp (jsSplit_ne_nil sep post)
    · simp
  | cons c rest ih =>
    have hc : c ≠ sep := fun hcs => h (hcs ▸ List.mem_cons_self c rest)
    have hrest : sep ∉ rest := fun hm => h (List.mem_cons_of_mem c hm)
    simp only [List.cons_append, jsSplit, List.append_eq]
    rw [ih hrest]
    simp [hc]

theorem string_mk_data (s : String) : String.mk s.data = s := rfl

theorem parseLocale_no_dash (locale : String) (h : ('-' : Char) ∉ locale.data) :
    parseLocale locale = (locale, none) := by
  simp [parseLocale, jsSplitStr, jsSplit_of_not_mem '-' locale.data h]

theorem parseLocale_dash (base region : String)
    (hb : ('-' : Char) ∉ base.data) (hr : ('-' : Char) ∉ region.data) :
    parseLocale (base ++ "-" ++ region) = (base, some region) := by
  have hdata : (base ++ "-" ++ region).data = base.data ++ '-' :: region.data := by
    simp [String.data_append]
  simp [parseLocale, jsSplitStr, hdata, jsSplit_append '-' base.data region.data hb,
    jsSplit_of_not_mem '-' region.data hr]

/-- Behaviour of `chain` on a region-less locale. -/
theorem buildFallbackChain_no_region (locale fallback : String)
    (h : ('-' : Char) ∉ locale.data) :
    buildFallbackChain locale fallback =
      if locale = fallback then [locale] else [locale, fallback] := by
  simp only [buildFallbackChain]
  rw [parseLocale_no_dash locale h]
  by_cases hf : fallback = locale
  · subst hf; simp [regionTruthy]
  · simp [regionTruthy, hf, Ne.symm hf]

/-- Behaviour of `chain` on a locale of the form `base-REGION` (one separator, both
parts separator-free, region nonempty). The fallback is omitted not only
when it equals the base but also when it equals the full locale. -/
theorem buildFallbackChain_region (base region fallback : String)
    (hb : ('-' : Char) ∉ base.data) (hr : ('-' : Char) ∉ region.data)
    (hreg : region ≠ "") :
    buildFallbackChain (base ++ "-" ++ region) fallback =
      if fallback = base ∨ fallback = base ++ "-" ++ region
      then [base ++ "-" ++ region, base]
      else [base ++ "-" ++ region, base, fallback] := by
  have hne : base ≠ base ++ "-" ++ region := by
    intro hEq
    have h1 := congrArg String.length hEq
    rw [String.length_append, String.length_append,
      show ("-" : String).length = 1 from rfl] at h1
    omega
  simp only [buildFallbackChain]
  rw [parseLocale_dash base region hb hr]
  by_cases h1 : fallback = base
  · simp [regionTruthy, hreg, hne, h1]
  · by_cases h2 : fallback = base ++ "-" ++ region
    · simp [regionTruthy, hreg, hne, h1, h2]
    · simp [regionTruthy, hreg, hne, h1, h2]

/-- C1 counterexample. The claim predicts `[locale, base, fallback]`
whenever `fallback ≠ base`, but for `chain('tr-TR', 'tr-TR')` the code
returns `['tr-TR', 'tr']`: the fallback is also dropped when it equals the
full locale (already in the chain). -/
theorem c1_counterexample :
    buildFallbackChain "tr-TR" "tr-TR" ≠ ["tr-TR", "tr", "tr-TR"] := by decide

/-- C1, amended. For separator-free locale codes,
`chain(locale, fallback)` is `[locale]` when `locale = fallback` and
`[locale, fallback]` otherwise; for `locale = base-REGION`, `chain`
returns `[locale, base, fallback]` unless the fallback equals the base
*or the full locale*, in which case it returns `[locale, base]`. -/
theorem c1_fallback_chain_amended :
    (∀ locale fallback : String, ('-' : Char) ∉ locale.data →
      buildFallbackChain locale fallback =
        if locale = fallback then [locale] else [locale, fallback])
    ∧ (∀ base region fallback : String, ('-' : Char) ∉ base.data →
        ('-' : Char) ∉ region.data → region ≠ "" →
        buildFallbackChain (base ++ "-" ++ region) fallback =
          if fallback = base ∨ fallback = base ++ "-" ++ region
          then [base ++ "-" ++ region, base]
          else [base ++ "-" ++ region, base, fallback]) :=
  ⟨buildFallbackChain_no_region, buildFallbackChain_region⟩

/-- Witness for C1 at concrete inputs: `chain('en','fr') = ['en','fr']`
and `chain('tr-TR','en') = ['tr-TR','tr','en']`. -/
theorem c1_fallback_chain_amended_witness :
    buildFallbackChain "en" "fr" = ["en", "fr"]
    ∧ buildFallbackChain "tr-TR" "en" = ["tr-TR", "tr", "en"] := by
  refine ⟨?_, ?_⟩
  · rw [c1_fallback_chain_amended.1 "en" "fr" (by decide), if_neg (by decide)]
  · have h := c1_fallback_chain_amended.2 "tr" "TR" "en" (by decide) (by decide)
      (by decide)
    rw [if_neg (by decide)] at h
    exact h

theorem findInDict_exact (dict : Dict) (key s : String)
    (h : getProp dict key = some (.vstr s)) : findInDict dict key = some s := by
  simp [findInDict, h]

theorem findInDict_not_string (dict : Dict) (key : String)
    (h : isStringValue (getProp dict key) = false) :
    findInDict dict key =
      if jsIncludesChar key '.' then getByPath dict key else none := by
  unfold findInDict
  rcases hv : getProp dict key with _ | v
  · rfl
  · cases v <;> simp_all [isStringValue]

theorem resolveLoop_skip (key : String) (messages : Messages)
    (loc : String) (rest : List String) (dict : Dict)
    (hdict : lookupDict messages loc = some dict)
    (hmiss : findInDict dict key = none) :
    resolveLoop key messages (loc :: rest) = resolveLoop key messages rest := by
  simp [resolveLoop, hdict, hmiss]

/-- C2. Message lookup is two-phase with exact-key priority: an exact
own key with a plain-string value is returned; otherwise, for dotted keys,
the dictionary is walked as a tree (non-string or missing intermediates
yield not-found; everything is total, so nothing throws). In particular
`findByPath({a:{b:'v'}}, 'a.b') = 'v'` and `findByPath({a:{b:'v'}}, 'a')`
is not-found. -/
theorem c2_two_phase_lookup :
    (∀ (dict : Dict) (key s : String),
      getProp dict key = some (.vstr s) → findInDict dict key = some s)
    ∧ (∀ (dict : Dict) (key : String),
        isStringValue (getProp dict key) = false →
        findInDict dict key =
          if jsIncludesChar key '.' then getByPath dict key else none)
    ∧ (∀ (seg : String) (rest : List String) (n : Int),
        walkPath none (seg :: rest) = none
        ∧ walkPath (some .vnull) (seg :: rest) = none
        ∧ walkPath (some (.vnum n)) (seg :: rest) = none)
    ∧ getByPath [("a", .vobj [("b", .vstr "v")])] "a.b" = some "v"
    ∧ getByPath [("a", .vobj [("b", .vstr "v")])] "a" = none :=
  ⟨findInDict_exact, findInDict_not_string,
    fun _ _ _ => ⟨rfl, rfl, rfl⟩, by decide, by decide⟩

/-- Witness for C2: the exact-key phase and the flat-vs-non-string phase
evaluated on concrete dictionaries. -/
theorem c2_two_phase_lookup_witness :
    findInDict [("k", .vstr "v")] "k" = some "v"
    ∧ findInDict [("a", .vobj [("b", .vstr "x")])] "a.b" = some "x" := by
  refine ⟨c2_two_phase_lookup.1 _ "k" "v" rfl, ?_⟩
  rw [c2_two_phase_lookup.2.1 _ "a.b" (by decide)]
  decide

/-- C10. An exact-key hit whose value is not a string does not
terminate the search: the dot-path walk of the same dictionary is still
tried, and when that also misses, resolution continues with the remaining
candidates of the chain; concretely, a non-string entry under the current
locale still lets the fallback locale's translation win, and a non-string
flat entry still lets the nested walk of the same dictionary win. -/
theorem c10_nonstring_exact_continues :
    (∀ (dict : Dict) (key : String),
      isStringValue (getProp dict key) = false →
      findInDict dict key =
        if jsIncludesChar key '.' then getByPath dict key else none)
    ∧ (∀ (key loc : String) (rest : List String) (messages : Messages) (dict : Dict),
        lookupDict messages loc = some dict → findInDict dict key = none →
        resolveLoop key messages (loc :: rest) = resolveLoop key messages rest)
    ∧ resolveMessageFromLoaded "k" "tr" "en"
        [("tr", [("k", .vobj [])]), ("en", [("k", .vstr "v")])] = some "v"
    ∧ resolveMessageFromLoaded "a.b" "en" "en"
        [("en", [("a.b", .vobj []), ("a", .vobj [("b", .vstr "x")])])] = some "x" :=
  ⟨findInDict_not_string,
    fun key loc rest messages dict h1 h2 =>
      resolveLoop_skip key messages loc rest dict h1 h2,
    by decide, by decide⟩

/-- Witness for C10 at a concrete store: the chain step over a non-string
hit is skipped in favour of the next candidate. -/
theorem c10_nonstring_exact_continues_witness :
    resolveLoop "k" [("tr", [("k", .vobj [])]), ("en", [("k", .vstr "v")])]
        ["tr", "en"]
      = resolveLoop "k" [("tr", [("k", .vobj [])]), ("en", [("k", .vstr "v")])]
        ["en"] := by
  exact c10_nonstring_exact_continues.2.1 "k" "tr" ["en"]
    [("tr", [("k", .vobj [])]), ("en", [("k", .vstr "v")])]
    [("k", .vobj [])] rfl rfl

/-- C4. The function `format(template, locale, params)` is fail-soft: it is a total
function into strings whose result is either the original template —
returned whenever the abstracted grammar engine fails at compilation or
evaluation — or a successful evaluation of a compiled formatter; on a
compile error or an evaluation error the original template comes back
unchanged, with the cache as the only other effect. -/
theorem c4_format_fail_soft :
    ∀ {C E : Type} (compile : String → String → Except E C)
      (eval : C → Params → Except E String)
      (cache : ICUCache C) (message locale : String) (params : Params),
      ((parserFormat compile eval cache message locale params).1 = message
        ∨ ∃ f r, eval f params = .ok r
            ∧ (parserFormat compile eval cache message locale params).1 = r)
      ∧ (∀ e, jsMapGet cache (locale ++ ":" ++ message) = none →
          compile message locale = .error e →
          parserFormat compile eval cache message locale params
            = (message, cache))
      ∧ (∀ f e, jsMapGet cache (locale ++ ":" ++ message) = some f →
          eval f params = .error e →
          parserFormat compile eval cache message locale params
            = (message, cache)) := by
  intro C E compile eval cache message locale params
  refine ⟨?_, ?_, ?_⟩
  · rcases hg : jsMapGet cache (locale ++ ":" ++ message) with _ | f
    · rcases hc : compile message locale with e | f
      · left; simp [parserFormat, hg, hc]
      · rcases he : eval f params with e | r
        · left; simp [parserFormat, hg, hc, he]
        · right; exact ⟨f, r, he, by simp [parserFormat, hg, hc, he]⟩
    · rcases he : eval f params with e | r
      · left; simp [parserFormat, hg, he]
      · right; exact ⟨f, r, he, by simp [parserFormat, hg, he]⟩
  · intro e hg hc
    simp [parserFormat, hg, hc]
  · intro f e hg he
    simp [parserFormat, hg, he]

/-- Witness for C4: a compile step that always fails leaves the template
untouched and the cache empty. -/
theorem c4_format_fail_soft_witness :
    parserFormat (fun _ _ => (Except.error () : Except Unit String))
      (fun f _ => Except.ok f) ([] : ICUCache String) "tpl" "en" []
      = ("tpl", []) :=
  (c4_format_fail_soft (fun _ _ => Except.error ()) (fun f _ => Except.ok f)
    [] "tpl" "en" []).2.1 () rfl rfl

/-- C3. When no candidate locale yields a string, `t` returns the key
itself and fires the missing-key hook with `(key, currentLocale)` (and the
telemetry miss hook); in particular `t('missing.key')` on a store with no
matching entry renders the literal string `'missing.key'`. -/
theorem c3_missing_key_returns_key :
    (∀ {C E : Type} (compile : String → String → Except E C)
       (eval : C → Params → Except E String) (st : I18nState C)
       (key : String) (params : Option Params),
      resolveMessageFromLoaded key st.currentLocale st.fallbackLocale
          st.loadedMessages = none →
      (tFun compile eval st key params).1 = key
        ∧ (tFun compile eval st key params).2.2
            = [.missingKey key st.currentLocale,
                .onMiss key st.currentLocale])
    ∧ tFun (fun _ _ => (Except.error () : Except Unit Unit))
        (fun _ _ => Except.error ())
        ⟨"en", "en", [("en", [("greeting", .vstr "Hello")])], [], []⟩
        "missing.key" none
        = ("missing.key",
            ⟨"en", "en", [("en", [("greeting", .vstr "Hello")])], [], []⟩,
            [.missingKey "missing.key" "en", .onMiss "missing.key" "en"]) := by
  constructor
  · intro C E compile eval st key params h
    exact ⟨by simp [tFun, h], by simp [tFun, h]⟩
  · rfl

/-- Witness for C3: the missing-key branch applied to a concrete store. -/
theorem c3_missing_key_returns_key_witness :
    (tFun (fun _ _ => (Except.error () : Except Unit Unit))
        (fun _ _ => Except.error ())
        ⟨"tr", "en", [("en", [("a", .vstr "x")])], [], []⟩
        "missing.key" none).1 = "missing.key" :=
  (c3_missing_key_returns_key.1 (fun _ _ => Except.error ())
    (fun _ _ => Except.error ())
    ⟨"tr", "en", [("en", [("a", .vstr "x")])], [], []⟩
    "missing.key" none rfl).1

/-- C6. The caching decorator is offline-first: a fresh (non-expired)
entry is returned without invoking the wrapped source; otherwise the
source is invoked and, on success, persisted with a fresh timestamp and
returned; on failure an existing entry of any age is returned instead of
the error, and an error comes back only when no cached entry exists. -/
theorem c6_cached_loader_offline_first :
    (∀ (ttl now : Nat) (src : Except String Dict) (st : CachedState)
       (locale : String) (entry : CacheEntry),
      jsMapGet st.store locale = some entry →
      now - entry.timestamp ≤ ttl →
      cachedLoad ttl now src st locale
        = (.ok entry.messages,
            { st with loadedLocales := addLoaded st.loadedLocales locale },
            false))
    ∧ (∀ (ttl now : Nat) (st : CachedState) (locale : String) (d : Dict),
        jsMapGet st.store locale = none →
        cachedLoad ttl now (.ok d) st locale
          = (.ok d,
              ⟨jsMapSet st.store locale ⟨d, now⟩,
                addLoaded st.loadedLocales locale⟩,
              true))
    ∧ (∀ (ttl now : Nat) (st : CachedState) (locale e : String),
        jsMapGet st.store locale = none →
        cachedLoad ttl now (.error e) st locale = (.error e, st, true))
    ∧ (∀ (ttl now : Nat) (st : CachedState) (locale e : String)
         (entry : CacheEntry),
        jsMapGet st.store locale = some entry →
        now - entry.timestamp > ttl →
        cachedLoad ttl now (.error e) st locale
          = (.ok entry.messages,
              { st with loadedLocales := addLoaded st.loadedLocales locale },
              true))
    ∧ (∀ (ttl now : Nat) (st : CachedState) (locale : String)
         (entry : CacheEntry) (d : Dict),
        jsMapGet st.store locale = some entry →
        now - entry.timestamp > ttl →
        cachedLoad ttl now (.ok d) st locale
          = (.ok d,
              ⟨jsMapSet st.store locale ⟨d, now⟩,
                addLoaded st.loadedLocales locale⟩,
              true))
    ∧ (∀ (ttl now : Nat) (src : Except String Dict) (st : CachedState)
         (locale e : String),
        (cachedLoad ttl now src st locale).1 = .error e →
        jsMapGet st.store locale = none ∧ src = .error e) := by
  refine ⟨?_, ?_, ?_, ?_, ?_, ?_⟩
  · intro ttl now src st locale entry hget hfresh
    have hexp : isExpired entry.timestamp ttl now = false := by
      simp [isExpired]; omega
    simp [cachedLoad, hget, hexp]
  · intro ttl now st locale d hget
    simp [cachedLoad, cachedFetch, hget]
  · intro ttl now st locale e hget
    simp [cachedLoad, cachedFetch, hget]
  · intro ttl now st locale e entry hget hstale
    have hexp : isExpired entry.timestamp ttl now = true := by
      simp [isExpired]; omega
    simp [cachedLoad, cachedFetch, hget, hexp]
  · intro ttl now st locale entry d hget hstale
    have hexp : isExpired entry.timestamp ttl now = true := by
      simp [isExpired]; omega
    simp [cachedLoad, cachedFetch, hget, hexp]
  · intro ttl now src st locale e h
    rcases hget : jsMapGet st.store locale with _ | entry
    · refine ⟨rfl, ?_⟩
      rcases hsrc : src with e' | d
      · rw [hsrc] at h
        simp [cachedLoad, cachedFetch, hget] at h
        rw [h]
      · rw [hsrc] at h
        simp [cachedLoad, cachedFetch, hget] at h
    · by_cases hexp : isExpired entry.timestamp ttl now = true
      · rcases hsrc : src with e' | d
        · rw [hsrc] at h
          simp [cachedLoad, cachedFetch, hget, hexp] at h
        · rw [hsrc] at h
          simp [cachedLoad, cachedFetch, hget, hexp] at h
      · rw [Bool.not_eq_true] at hexp
        simp [cachedLoad, hget, hexp] at h

/-- Witness for C6 (the §8 scenario): the wrapped source now rejects, the
only entry is stale, and the stale payload is returned instead of the
error. -/
theorem c6_cached_loader_offline_first_witness :
    cachedLoad 10 1000 (.error "network")
        ⟨[("en", ⟨[("hello", .vstr "Hi")], 0⟩)], ["en"]⟩ "en"
      = (.ok [("hello", .vstr "Hi")],
          ⟨[("en", ⟨[("hello", .vstr "Hi")], 0⟩)], ["en"]⟩, true) := by
  have h := c6_cached_loader_offline_first.2.2.2.1 10 1000
    ⟨[("en", ⟨[("hello", .vstr "Hi")], 0⟩)], ["en"]⟩ "en" "network"
    ⟨[("hello", .vstr "Hi")], 0⟩ rfl (by decide)
  exact h.trans (by rfl)

theorem find?_append_singleton {K V : Type} [BEq K] [LawfulBEq K]
    (m : List (K × V)) (k : K) (v : V)
    (h : m.find? (fun e => e.1 == k) = none) :
    (m ++ [(k, v)]).find? (fun e => e.1 == k) = some (k, v) := by
  induction m with
  | nil => simp [List.find?]
  | cons e rest ih =>
    by_cases he : (e.1 == k) = true
    · simp [List.find?, he] at h
    · simp only [List.find?, he] at h
      simp only [List.cons_append, List.find?, he]
      exact ih h

theorem find?_map_overwrite {K V : Type} [BEq K] [LawfulBEq K]
    (m : List (K × V)) (k : K) (v : V)
    (h : (m.find? (fun e => e.1 == k)).isSome = true) :
    (m.map (fun e => if e.1 == k then (k, v) else e)).find?
        (fun e => e.1 == k) = some (k, v) := by
  induction m with
  | nil => simp at h
  | cons e rest ih =>
    cases he : e.1 == k with
    | true => simp [List.find?_cons, List.find?, he]
    | false =>
      have h' : (rest.find? (fun e => e.1 == k)).isSome = true := by
        simpa [List.find?_cons, List.find?, he] using h
      simpa [List.find?_cons, List.find?, he] using ih h'

/-- After `map.set(k, v)` (object property assignment), reading `k` gives
`v`. -/
theorem jsMapGet_set_same {K V : Type} [BEq K] [LawfulBEq K]
    (m : List (K × V)) (k : K) (v : V) :
    jsMapGet (jsMapSet m k v) k = some v := by
  unfold jsMapGet jsMapSet
  by_cases h : (m.find? (fun e => e.1 == k)).isSome = true
  · rw [if_pos h, find?_map_overwrite m k v h]
    rfl
  · rw [if_neg h]
    have hn : m.find? (fun e => e.1 == k) = none := by
      rcases hx : m.find? (fun e => e.1 == k) with _ | e
      · exact hx
      · rw [hx] at h; simp at h
    rw [find?_append_singleton m k v hn]
    rfl

theorem lookupDict_eq_jsMapGet (m : Messages) (loc : String) :
    lookupDict m loc = jsMapGet m loc := rfl

/-- A marked (locale, namespace) pair makes `loadNamespace` a no-op. -/
theorem loadNamespace_marked {C : Type} (st : I18nState C) (ns : String)
    (frag : Dict)
    (h : ns ∈ (jsMapGet st.loadedNamespaces st.currentLocale).getD []) :
    loadNamespace st ns frag = (st, false) := by
  simp [loadNamespace, h]

/-- C7. The operation `loadNamespace` is exactly-once per (locale, namespace) pair:
a first call on an unmarked pair invokes the source and merges the
fragment over the current locale's dictionary; an immediately repeated
call for the same pair is a no-op that does not invoke the source; a call
on a marked pair never invokes the source; and the marker is per-locale,
so after switching to a locale for which the pair is unmarked the source
is invoked again. -/
theorem c7_load_namespace_once_per_pair :
    (∀ {C : Type} (st : I18nState C) (ns : String) (frag frag2 : Dict),
      ns ∉ (jsMapGet st.loadedNamespaces st.currentLocale).getD [] →
      (loadNamespace st ns frag).2 = true
      ∧ loadNamespace (loadNamespace st ns frag).1 ns frag2
          = ((loadNamespace st ns frag).1, false)
      ∧ lookupDict (loadNamespace st ns frag).1.loadedMessages
            st.currentLocale
          = some (jsMergeObj
              ((lookupDict st.loadedMessages st.currentLocale).getD [])
              frag))
    ∧ (∀ {C : Type} (st : I18nState C) (ns : String) (frag : Dict),
        ns ∈ (jsMapGet st.loadedNamespaces st.currentLocale).getD [] →
        loadNamespace st ns frag = (st, false))
    ∧ (∀ {C : Type} (st : I18nState C) (ns loc2 : String) (frag : Dict),
        ns ∉ (jsMapGet st.loadedNamespaces loc2).getD [] →
        (loadNamespace (setLocale st loc2) ns frag).2 = true) := by
  refine ⟨?_, ?_, ?_⟩
  · intro C st ns frag frag2 h
    refine ⟨by simp [loadNamespace, h], ?_, ?_⟩
    · have hcur : (loadNamespace st ns frag).1.currentLocale
          = st.currentLocale := by
        simp [loadNamespace, h]
      have hns : (loadNamespace st ns frag).1.loadedNamespaces
          = jsMapSet st.loadedNamespaces st.currentLocale
              (((jsMapGet st.loadedNamespaces st.currentLocale).getD [])
                ++ [ns]) := by
        simp [loadNamespace, h]
      have hmem : ns ∈ (jsMapGet (loadNamespace st ns frag).1.loadedNamespaces
          (loadNamespace st ns frag).1.currentLocale).getD [] := by
        rw [hcur, hns, jsMapGet_set_same]
        simp
      exact loadNamespace_marked _ ns frag2 hmem
    · have hmsg : (loadNamespace st ns frag).1.loadedMessages
          = jsMapSet st.loadedMessages st.currentLocale
              (jsMergeObj
                ((lookupDict st.loadedMessages st.currentLocale).getD [])
                frag) := by
        simp [loadNamespace, h]
      rw [hmsg, lookupDict_eq_jsMapGet, jsMapGet_set_same]
  · intro C st ns frag h
    exact loadNamespace_marked st ns frag h
  · intro C st ns loc2 frag h
    simp [loadNamespace, setLocale, h]

/-- Witness for C7 on a concrete instance: first load invoked, repeat is a
no-op, and the marker does not carry over to another locale. -/
theorem c7_load_namespace_once_per_pair_witness :
    ((loadNamespace (C := Unit) ⟨"en", "en", [], [], []⟩ "admin"
        [("title", .vstr "Admin")]).2 = true)
    ∧ ((loadNamespace (C := Unit)
        ⟨"tr", "en", [], [("en", ["admin"])], []⟩ "admin"
        [("title", .vstr "Admin")]).2 = true) := by
  constructor
  · exact (c7_load_namespace_once_per_pair.1
      ⟨"en", "en", [], [], []⟩ "admin" [("title", .vstr "Admin")]
      [("title", .vstr "Admin")] (by simp [jsMapGet])).1
  · exact c7_load_namespace_once_per_pair.2.2
      ⟨"tr", "en", [], [("en", ["admin"])], []⟩ "admin" "tr"
      [("title", .vstr "Admin")] (by simp [jsMapGet, List.find?])

theorem interpGo_cons_no_brace (params : Params) (c : Char) (rest : List Char)
    (hc : c ≠ '{') :
    interpGo params (c :: rest) = c :: interpGo params rest := by
  conv_lhs => rw [interpGo.eq_def]
  simp [hc]

theorem takeWhile_append_of_all (p : Char → Bool) (w l : List Char)
    (h : ∀ c ∈ w, p c = true) :
    (w ++ l).takeWhile p = w ++ l.takeWhile p := by
  induction w with
  | nil => simp
  | cons c rest ih =>
    have hc : p c = true := h c (List.mem_cons_self c rest)
    rw [List.cons_append, List.takeWhile_cons_of_pos hc,
      ih fun x hx => h x (List.mem_cons_of_mem _ hx), List.cons_append]

/-- A brace-free prefix is copied verbatim by the regex replace. -/
theorem interpGo_append_no_brace (params : Params) (a rest : List Char)
    (h : ∀ c ∈ a, c ≠ '{') :
    interpGo params (a ++ rest) = a ++ interpGo params rest := by
  induction a with
  | nil => simp
  | cons c t ih =>
    rw [List.cons_append,
      interpGo_cons_no_brace params c _ (h c (List.mem_cons_self c t)),
      ih fun x hx => h x (List.mem_cons_of_mem _ hx), List.cons_append]

/-- One placeholder occurrence `{k}` at the head of the scan: substituted
from the params (null → empty, missing → verbatim), with scanning resuming
after it. -/
theorem interpGo_placeholder (params : Params) (k rest : List Char)
    (hk : k ≠ []) (hw : ∀ c ∈ k, isWordChar c = true) :
    interpGo params ('{' :: (k ++ '}' :: rest)) =
      (match lookupParam params (String.mk k) with
        | some .pnull => []
        | some (.pstr s) => s.data
        | none => '{' :: (k ++ ['}'])) ++ interpGo params rest := by
  have h1 : (k ++ '}' :: rest).takeWhile isWordChar = k := by
    rw [takeWhile_append_of_all _ _ _ hw,
      List.takeWhile_cons_of_neg (by simp [isWordChar])]
    simp
  have h2 : (k ++ '}' :: rest).drop k.length = '}' :: rest :=
    List.drop_left k ('}' :: rest)
  conv_lhs => rw [interpGo.eq_def]
  simp only [if_pos rfl, h1, h2, List.head?_cons, List.tail_cons]
  rw [if_pos (And.intro hk True.intro)]
  simp

/-- Core of C8: a template `a{k}b` with a brace-free `a` and a bare-word
`k` rewrites the placeholder according to the params. -/
theorem interpolate_core (params : Params) (a k b : String)
    (hp : params ≠ []) (ha : ∀ c ∈ a.data, c ≠ '{')
    (hk : k.data ≠ []) (hw : ∀ c ∈ k.data, isWordChar c = true) :
    interpolate (a ++ "\x7b" ++ k ++ "\x7d" ++ b) params
      = String.mk (a.data ++
          ((match lookupParam params k with
            | some .pnull => []
            | some (.pstr s) => s.data
            | none => '{' :: (k.data ++ ['}'])) ++ interpGo params b.data)) := by
  have hdata : (a ++ "\x7b" ++ k ++ "\x7d" ++ b).data
      = a.data ++ ('{' :: (k.data ++ '}' :: b.data)) := by
    simp [String.data_append]
  have hne : params.isEmpty = false := by
    cases params with
    | nil => exact absurd rfl hp
    | cons e t => rfl
  simp only [interpolate, hne, Bool.false_eq_true, if_false]
  rw [hdata, interpGo_append_no_brace params _ _ ha,
    interpGo_placeholder params _ _ hk hw, string_mk_data]

/-- C8. For plain-text templates, every `{identifier}` occurrence with
a present param is replaced by the stringified value, `null`/`undefined`
params become the empty string, absent keys stay verbatim, and the
end-to-end `t('greeting', {name: 'Ann'})` against
`{greeting: 'Hello {name}!'}` renders `'Hello Ann!'`. -/
theorem c8_literal_interpolation :
    (∀ (params : Params) (a k b v : String),
      params ≠ [] → (∀ c ∈ a.data, c ≠ '{') →
      k.data ≠ [] → (∀ c ∈ k.data, isWordChar c = true) →
      lookupParam params k = some (.pstr v) →
      interpolate (a ++ "\x7b" ++ k ++ "\x7d" ++ b) params
        = String.mk (a.data ++ (v.data ++ interpGo params b.data)))
    ∧ (∀ (params : Params) (a k b : String),
      params ≠ [] → (∀ c ∈ a.data, c ≠ '{') →
      k.data ≠ [] → (∀ c ∈ k.data, isWordChar c = true) →
      lookupParam params k = some .pnull →
      interpolate (a ++ "\x7b" ++ k ++ "\x7d" ++ b) params
        = String.mk (a.data ++ interpGo params b.data))
    ∧ (∀ (params : Params) (a k b : String),
      params ≠ [] → (∀ c ∈ a.data, c ≠ '{') →
      k.data ≠ [] → (∀ c ∈ k.data, isWordChar c = true) →
      lookupParam params k = none →
      interpolate (a ++ "\x7b" ++ k ++ "\x7d" ++ b) params
        = String.mk (a.data ++ ('{' :: (k.data ++ '}' :: interpGo params b.data))))
    ∧ (tFun (fun _ _ => (Except.error () : Except Unit Unit))
        (fun _ _ => Except.error ())
        ⟨"en", "en", [("en", [("greeting", .vstr "Hello {name}!")])], [], []⟩
        "greeting" (some [("name", .pstr "Ann")])).1 = "Hello Ann!" := by
  refine ⟨?_, ?_, ?_, ?_⟩
  · intro params a k b v hp ha hk hw hv
    rw [interpolate_core params a k b hp ha hk hw, hv]
  · intro params a k b hp ha hk hw hv
    rw [interpolate_core params a k b hp ha hk hw, hv]
    simp
  · intro params a k b hp ha hk hw hv
    rw [interpolate_core params a k b hp ha hk hw, hv]
    simp
  · show interpolate "Hello {name}!" [("name", .pstr "Ann")] = "Hello Ann!"
    simp [interpolate, interpGo, lookupParam, isWordChar, List.takeWhile,
      String.mk]

/-- Witness for C8: the replacement case on a concrete template. -/
theorem c8_literal_interpolation_witness :
    interpolate ("Hello " ++ "\x7b" ++ "name" ++ "\x7d" ++ "!")
        [("name", PValue.pstr "Ann")] = "Hello Ann!" := by
  have h := c8_literal_interpolation.1 [("name", PValue.pstr "Ann")]
    "Hello " "name" "!" "Ann" (by simp) (by decide) (by decide) (by decide) rfl
  rw [h]
  simp [interpGo, lookupParam, isWordChar, List.takeWhile, String.mk]

theorem find?_delete_none {K V : Type} [BEq K] (m : List (K × V)) (k : K) :
    (jsMapDelete m k).find? (fun e => e.1 == k) = none := by
  induction m with
  | nil => rfl
  | cons e rest ih =>
    cases he : e.1 == k with
    | true => simp [jsMapDelete, List.filter_cons, he, ih]
    | false => simp [jsMapDelete, List.filter_cons, List.find?, he, ih]

theorem jsMapGet_delete_none {K V : Type} [BEq K] (m : List (K × V)) (k : K) :
    jsMapGet (jsMapDelete m k) k = none := by
  unfold jsMapGet
  rw [find?_delete_none]
  rfl

theorem jsMapSet_of_get_none {K V : Type} [BEq K] (m : List (K × V))
    (k : K) (v : V) (h : jsMapGet m k = none) :
    jsMapSet m k v = m ++ [(k, v)] := by
  unfold jsMapSet
  have hf : m.find? (fun e => e.1 == k) = none := by
    unfold jsMapGet at h
    exact Option.map_eq_none'.mp h
  rw [hf]
  rfl

theorem jsMapDelete_length_lt {K V : Type} [BEq K] (m : List (K × V)) (k : K)
    (h : (jsMapGet m k).isSome = true) :
    (jsMapDelete m k).length < m.length := by
  induction m with
  | nil => simp [jsMapGet] at h
  | cons e rest ih =>
    cases he : e.1 == k with
    | true =>
      have hle := List.length_filter_le (fun e => !(e.1 == k)) rest
      simp only [jsMapDelete, List.filter_cons, he, Bool.not_true,
        Bool.false_eq_true, if_false, List.length_cons]
      omega
    | false =>
      have h' : (jsMapGet rest k).isSome = true := by
        simpa [jsMapGet, List.find?, he] using h
      have hlt := ih h'
      simp only [jsMapDelete, List.filter_cons, he, Bool.not_false, if_true,
        List.length_cons] at hlt ⊢
      omega

theorem evictOldest_of_le {K V : Type} (max : Nat) (c : LRU K V)
    (h : c.length ≤ max) : evictOldest max c = c := by
  cases c with
  | nil => rfl
  | cons e rest =>
    have step : evictOldest max (e :: rest)
        = if rest.length + 1 > max then evictOldest max rest
          else e :: rest := rfl
    rw [step, if_neg (by simp only [List.length_cons] at h; omega)]

theorem evictOldest_of_succ {K V : Type} (max : Nat) (c : LRU K V)
    (h : c.length = max + 1) : evictOldest max c = c.tail := by
  cases c with
  | nil => simp at h
  | cons e rest =>
    have hr : rest.length = max := by simpa using h
    have step : evictOldest max (e :: rest)
        = if rest.length + 1 > max then evictOldest max rest
          else e :: rest := rfl
    rw [step, if_pos (by omega), evictOldest_of_le max rest (by omega)]
    rfl

theorem find?_eq_none_of_ne {K V : Type} [BEq K] [LawfulBEq K]
    (l : List (K × V)) (k : K) (h : ∀ e ∈ l, e.1 ≠ k) :
    l.find? (fun e => e.1 == k) = none := by
  induction l with
  | nil => rfl
  | cons e rest ih =>
    have he : (e.1 == k) = false :=
      beq_eq_false_iff_ne.mpr (h e (List.mem_cons_self e rest))
    simp only [List.find?, he]
    exact ih fun x hx => h x (List.mem_cons_of_mem _ hx)

theorem find?_map_pair (l : List Nat) (k : Nat) :
    ((l.map (fun j => (j, (0 : Nat)))).find? (fun e => e.1 == k))
      = if k ∈ l then some (k, 0) else none := by
  induction l with
  | nil => rfl
  | cons j rest ih =>
    by_cases hj : j = k
    · subst hj
      simp [List.find?]
    · have hb : (j == k) = false := beq_eq_false_iff_ne.mpr hj
      simp only [List.map_cons, List.find?, hb]
      rw [ih]
      simp [Ne.symm hj]

theorem lruExpected_length (max n : Nat) :
    (lruExpected max n).length = n - (n - max) := by
  simp [lruExpected]

theorem lruExpected_keys_lt (max n : Nat) :
    ∀ e ∈ lruExpected max n, e.1 < n := by
  intro e he
  have hmem : e ∈ (List.range n).map (fun j => (j, (0 : Nat))) :=
    List.mem_of_mem_drop he
  rcases List.mem_map.mp hmem with ⟨j, hj, rfl⟩
  exact List.mem_range.mp hj

theorem jsMapGet_expected_none (max n : Nat) :
    jsMapGet (lruExpected max n) n = none := by
  unfold jsMapGet
  rw [find?_eq_none_of_ne]
  · rfl
  · intro e he
    have := lruExpected_keys_lt max n e he
    omega

theorem lruFold_range (max n : Nat) :
    (List.range n).foldl (fun c k => lruSet max c k 0) [] = lruExpected max n := by
  induction n with
  | zero => simp [lruExpected]
  | succ n ih =>
    rw [List.range_succ, List.foldl_append, ih]
    simp only [List.foldl_cons, List.foldl_nil]
    have hget : jsMapGet (lruExpected max n) n = none :=
      jsMapGet_expected_none max n
    simp only [lruSet, hget, Option.isSome_none, Bool.false_eq_true, if_false]
    rw [jsMapSet_of_get_none _ _ _ hget]
    by_cases hn : n < max
    · rw [evictOldest_of_le]
      · have h1 : n - max = 0 := by omega
        have h2 : n + 1 - max = 0 := by omega
        simp [lruExpected, h1, h2, List.range_succ]
      · rw [List.length_append, lruExpected_length]
        simp only [List.length_cons, List.length_nil]
        omega
    · have hge : max ≤ n := by omega
      rw [evictOldest_of_succ]
      · rcases Nat.eq_zero_or_pos max with hm0 | hmpos
        · subst hm0
          have he1 : lruExpected 0 n = [] := by
            rw [lruExpected]
            apply List.drop_eq_nil_of_le
            simp
          have he2 : lruExpected 0 (n + 1) = [] := by
            rw [lruExpected]
            apply List.drop_eq_nil_of_le
            simp
          rw [he1, he2]
          rfl
        · rw [← List.drop_one]
          rw [lruExpected,
            List.drop_append_of_le_length
              (by simp only [List.length_drop, List.length_map,
                List.length_range]; omega),
            List.drop_drop]
          rw [lruExpected, List.range_succ, List.map_append,
            List.drop_append_of_le_length
              (by simp only [List.length_map, List.length_range]; omega)]
          have harith : n - max + 1 = n + 1 - max := by omega
          rw [harith]
          rfl
      · rw [List.length_append, lruExpected_length]
        simp only [List.length_cons, List.length_nil]
        omega

/-- C9. The bounded LRU cache: with capacity `max ≥ 1`, inserting
`max + 1` distinct keys leaves exactly `max` entries, and the
least-recently-touched key (the first inserted, never revisited) is the
absent one while all later keys remain; `get` on a hit promotes the entry
to the most-recently-used end; `set` on an existing key refreshes its
recency position. -/
theorem c9_lru_cache :
    (∀ max : Nat, 1 ≤ max →
      ((List.range (max + 1)).foldl (fun c k => lruSet max c k 0) []).length
          = max
      ∧ jsMapGet
          ((List.range (max + 1)).foldl (fun c k => lruSet max c k 0) []) 0
          = none
      ∧ ∀ k, 1 ≤ k → k ≤ max →
          jsMapGet
            ((List.range (max + 1)).foldl (fun c k => lruSet max c k 0) []) k
            = some 0)
    ∧ (∀ {K V : Type} [BEq K] (c : LRU K V) (k : K) (v : V),
        jsMapGet c k = some v →
        lruGet c k = (some v, jsMapDelete c k ++ [(k, v)]))
    ∧ (∀ {K V : Type} [BEq K] (max : Nat) (c : LRU K V) (k : K) (v : V),
        (jsMapGet c k).isSome = true → c.length ≤ max →
        lruSet max c k v = jsMapDelete c k ++ [(k, v)]) := by
  refine ⟨?_, ?_, ?_⟩
  · intro max hmax
    have hshape : (List.range (max + 1)).foldl (fun c k => lruSet max c k 0) []
        = ((List.range max).map Nat.succ).map (fun j => (j, 0)) := by
      rw [lruFold_range, lruExpected]
      have h1 : max + 1 - max = 1 := by omega
      rw [h1, List.range_succ_eq_map, List.map_cons, List.drop_one,
        List.tail_cons, List.map_map]
    refine ⟨?_, ?_, ?_⟩
    · rw [hshape]; simp
    · rw [hshape]
      unfold jsMapGet
      rw [find?_map_pair]
      simp
    · intro k hk1 hk2
      rw [hshape]
      unfold jsMapGet
      rw [find?_map_pair,
        if_pos (List.mem_map.mpr
          ⟨k - 1, List.mem_range.mpr (by omega), by omega⟩)]
      rfl
  · intro K V _ c k v h
    simp only [lruGet, h]
    rw [jsMapSet_of_get_none _ _ _ (jsMapGet_delete_none c k)]
  · intro K V _ max c k v h hle
    have hlt := jsMapDelete_length_lt c k h
    simp only [lruSet, h, if_pos]
    rw [jsMapSet_of_get_none _ _ _ (jsMapGet_delete_none c k)]
    rw [evictOldest_of_le]
    rw [List.length_append]
    simp only [List.length_cons, List.length_nil]
    omega

/-- Witness for C9 at capacity 1 and on concrete string-keyed caches. -/
theorem c9_lru_cache_witness :
    ((List.range 2).foldl (fun c k => lruSet 1 c k 0) []).length = 1
    ∧ jsMapGet ((List.range 2).foldl (fun c k => lruSet 1 c k 0) []) 0 = none
    ∧ lruGet [("a", 1), ("b", 2)] "a" = (some 1, [("b", 2), ("a", 1)])
    ∧ lruSet 2 [("a", 1), ("b", 2)] "a" 9 = [("b", 2), ("a", 9)] := by
  refine ⟨(c9_lru_cache.1 1 (by decide)).1, (c9_lru_cache.1 1 (by decide)).2.1,
    ?_, ?_⟩
  · exact (c9_lru_cache.2.1 [("a", 1), ("b", 2)] "a" 1
      (by decide)).trans (by decide)
  · exact (c9_lru_cache.2.2 2 [("a", 1), ("b", 2)] "a" 9 (by decide)
      (by decide)).trans (by decide)

theorem uMsg_len (i : Nat) : (uMsg i).length = i := by
  simp [uMsg, String.length]

theorem uMsg_key_len (i : Nat) : ("en" ++ ":" ++ uMsg i).length = 3 + i := by
  rw [String.length_append, String.length_append, uMsg_len]
  rfl

/-- Feeding `n` pairwise-distinct templates to `format` grows the parser
cache to exactly `n` entries: the `Map` never evicts. -/
theorem parserRun_fresh (n : Nat) :
    parserFormatRun (C := String) (E := Unit)
      (fun m _ => Except.ok m) (fun f _ => Except.ok f) "en" [] []
      ((List.range n).map uMsg)
      = (List.range n).map (fun i => ("en" ++ ":" ++ uMsg i, uMsg i)) := by
  induction n with
  | zero => rfl
  | succ n ih =>
    rw [List.range_succ, List.map_append, List.map_append]
    unfold parserFormatRun at ih ⊢
    rw [List.foldl_append, ih]
    simp only [List.map_cons, List.map_nil, List.foldl_cons, List.foldl_nil]
    have hget : jsMapGet
        ((List.range n).map (fun i => ("en" ++ ":" ++ uMsg i, uMsg i)))
        ("en" ++ ":" ++ uMsg n) = none := by
      unfold jsMapGet
      rw [find?_eq_none_of_ne]
      · rfl
      · intro e he
        rcases List.mem_map.mp he with ⟨i, hi, rfl⟩
        have hi' : i < n := List.mem_range.mp hi
        intro hEq
        have hlen := congrArg String.length hEq
        rw [uMsg_key_len, uMsg_key_len] at hlen
        omega
    simp only [parserFormat, hget]
    rw [jsMapSet_of_get_none _ _ _ hget]

/-- C5, refuted by the code. The spec asserts a bounded
compiled-template cache, but `createICUParser` caches in a plain `Map`
with no eviction: one `format` call for each of `DEFAULT_CACHE_SIZE + 1`
distinct templates leaves `DEFAULT_CACHE_SIZE + 1` cached entries,
exceeding the documented fixed capacity. -/
theorem c5_parser_cache_exceeds_bound :
    ((parserFormatRun (C := String) (E := Unit)
        (fun m _ => Except.ok m) (fun f _ => Except.ok f) "en" [] []
        ((List.range (DEFAULT_CACHE_SIZE + 1)).map uMsg)).length
      = DEFAULT_CACHE_SIZE + 1)
    ∧ DEFAULT_CACHE_SIZE + 1 > DEFAULT_CACHE_SIZE := by
  constructor
  · rw [parserRun_fresh]
    simp
  · omega

end Sentio
